import Mathlib

/-!
Verification of the scale-selection and pixel-format-conversion core of the
`img-vwr` image viewer (`src/main.rs`).

The viewer's numeric kernel consists of:
* `calc_scale` (src/main.rs:123-129): an integer downscale factor computed
  with 32-bit IEEE-754 float division and ceiling, cast back to `u32`;
* the RGB→RGBA conversion loop (src/main.rs:77-85): lock-step iteration of
  `chunks_exact(3)` over the source bytes zipped with `chunks_exact_mut(4)`
  over the destination frame, copying the three color channels and forcing
  the alpha byte to `0xff`;
* the scale-combination and window-size derivation in `main`
  (src/main.rs:58-62): the per-axis factors are combined with `max` and the
  window size is the image extent divided by the combined factor.

We embed the `f32` arithmetic exactly: every `f32` value produced by
`calc_scale` lies in the normal range, so a float is a rational of the form
`m * 2^(e-23)` with `2^23 ≤ m < 2^24`, plus the special value `+∞`
(produced by division by zero) and NaN.  `rhe` is round-half-to-even on
rationals and `f32round` rounds a positive rational to the nearest `f32`
(round-to-nearest, ties-to-even — the IEEE-754 default used by Rust).
-/

/-- Round half to even: the integer nearest to `m`, ties resolved to the
even neighbour.  This is the IEEE-754 default rounding applied to a scaled
significand. -/
def rhe (m : ℚ) : ℤ :=
  if m - ⌊m⌋ < 1/2 then ⌊m⌋
  else if 1/2 < m - ⌊m⌋ then ⌊m⌋ + 1
  else if Even ⌊m⌋ then ⌊m⌋ else ⌊m⌋ + 1

/-- Round a rational to the nearest binary32 value (round-to-nearest,
ties-to-even), for the normal nonnegative range: the significand has 24
bits, so a value with exponent `e` is rounded to a multiple of `2^(e-23)`.
All values reachable in `calc_scale` (quotients of `u32` values) lie far
inside the normal range, so no subnormal or overflow handling is needed. -/
def f32round (q : ℚ) : ℚ :=
  if q ≤ 0 then 0
  else (rhe (q * 2 ^ (23 - Int.log 2 q)) : ℚ) * 2 ^ (Int.log 2 q - 23)

/-- The fragment of `f32` reachable in `calc_scale`: finite nonnegative
values, `+∞` (from division of a positive value by `+0.0`) and NaN (from
`0.0 / 0.0`; never reached here but kept for totality). -/
inductive F32 where
  | finite (q : ℚ)
  | inf
  | nan
deriving DecidableEq

/-- `u32 as f32`: conversion of an unsigned integer to the nearest `f32`;
always finite since `u32::MAX < 2^32` is far below the `f32` maximum. -/
def F32.ofU32 (n : ℕ) : F32 := .finite (f32round n)

/-- `f32` division on the values reachable in `calc_scale` (both operands
are finite and nonnegative, coming from `F32.ofU32`): a positive value
divided by zero is `+∞`, `0.0 / 0.0` is NaN, and otherwise the exact
quotient is rounded to the nearest `f32`. -/
def F32.div : F32 → F32 → F32
  | .finite x, .finite y =>
      if y = 0 then (if x = 0 then .nan else .inf)
      else .finite (f32round (x / y))
  | _, _ => .nan

/-- `f32::ceil`: the ceiling of a finite `f32` is exactly representable
(values below `2^23` round up to an integer of at most 24 bits; values at
or above `2^23` are already integers), so no re-rounding occurs. -/
def F32.fceil : F32 → F32
  | .finite q => .finite ⌈q⌉
  | .inf => .inf
  | .nan => .nan

/-- `f32 as u32`: Rust float-to-integer casts truncate toward zero and
saturate: negative values and NaN give `0`, values at or above `u32::MAX`
give `u32::MAX = 2^32 - 1`, and `+∞` saturates to `u32::MAX`. -/
def F32.toU32 : F32 → ℕ
  | .finite q => if q ≤ 0 then 0 else min ⌊q⌋.toNat (2 ^ 32 - 1)
  | .inf => 2 ^ 32 - 1
  | .nan => 0

/-- `calc_scale` (src/main.rs:123-129):
`if max_size >= current_size { 1 } else { ((current_size as f32) / (max_size as f32)).ceil() as u32 }`. -/
def calc_scale (max_size current_size : ℕ) : ℕ :=
  if current_size ≤ max_size then 1
  else (((F32.ofU32 current_size).div (F32.ofU32 max_size)).fceil).toU32

/-- The scale combination in `main` (src/main.rs:58-60): the horizontal and
vertical factors are computed independently and combined with `max`. -/
def effective_scale (max_w max_h img_w img_h : ℕ) : ℕ :=
  max (calc_scale max_w img_w) (calc_scale max_h img_h)

/-- The window size derivation in `main` (src/main.rs:62): the image extent
divided (integer division) by the combined scale factor. -/
def window_inner_size (max_w max_h img_w img_h : ℕ) : ℕ × ℕ :=
  (img_w / effective_scale max_w max_h img_w img_h,
   img_h / effective_scale max_w max_h img_w img_h)

/-- The conversion loop in `main` (src/main.rs:77-85):
`image_bytes.chunks_exact(3).zip(pixels_bytes.chunks_exact_mut(4))` iterates
complete 3-byte source groups in lock-step with complete 4-byte destination
groups, stopping at the shorter grouped sequence; each step copies the three
color bytes and sets the fourth destination byte to `0xff = 255`.  The
returned list is the destination buffer after the loop. -/
def convert : List ℕ → List ℕ → List ℕ
  | s0 :: s1 :: s2 :: srest, _ :: _ :: _ :: _ :: drest =>
      s0 :: s1 :: s2 :: 255 :: convert srest drest
  | _, dst => dst

/-- Modelled from the spec: the decoded image handed to the core by the
external decode layer.  The conversion path only distinguishes whether the
image is in 8-bit 3-channel RGB layout (`rgb8`, carrying its flat byte
samples) or any other layout (`otherLayout`); the spec states that the
source assumes exactly 3-channel input and panics otherwise. -/
inductive DynamicImage where
  | rgb8 (data : List ℕ)
  | otherLayout

/-- Modelled from the spec: `as_rgb8` of the external image crate yields the
flat 8-bit RGB samples when the decoded image is in 8-bit 3-channel RGB
layout and no value otherwise. -/
def as_rgb8 : DynamicImage → Option (List ℕ)
  | .rgb8 data => some data
  | .otherLayout => none

/-- The conversion prelude of `main` (src/main.rs:72-85):
`image.as_rgb8().unwrap()` panics (modelled as `Except.error`) when the
image is not in 8-bit RGB layout; otherwise the conversion loop runs on its
flat samples and the destination frame. -/
def convert_frame (image : DynamicImage) (frame : List ℕ) : Except String (List ℕ) :=
  match as_rgb8 image with
  | none => .error "called Option unwrap on a None value"
  | some image_bytes => .ok (convert image_bytes frame)

-- ### Basic facts about the conversion loop

theorem convert_nil_src (dst : List ℕ) : convert [] dst = dst := by
  cases dst <;> rfl

theorem convert_short_src (src dst : List ℕ) (h : src.length < 3) :
    convert src dst = dst := by
  match src, dst with
  | [], d => exact convert_nil_src d
  | [_], d => cases d with
    | nil => rfl
    | cons a t => cases t with
      | nil => rfl
      | cons b t => cases t with
        | nil => rfl
        | cons c t => cases t <;> rfl
  | [_, _], d => cases d with
    | nil => rfl
    | cons a t => cases t with
      | nil => rfl
      | cons b t => cases t with
        | nil => rfl
        | cons c t => cases t <;> rfl
  | _ :: _ :: _ :: _, _ => simp at h; omega

theorem convert_short_dst (src dst : List ℕ) (h : dst.length < 4) :
    convert src dst = dst := by
  match src, dst with
  | [], d => exact convert_nil_src d
  | [_], d => exact convert_short_src _ d (by simp)
  | [_, _], d => exact convert_short_src _ d (by simp)
  | _ :: _ :: _ :: _, [] => rfl
  | _ :: _ :: _ :: _, [_] => rfl
  | _ :: _ :: _ :: _, [_, _] => rfl
  | _ :: _ :: _ :: _, [_, _, _] => rfl
  | _ :: _ :: _ :: _, _ :: _ :: _ :: _ :: _ => simp at h; omega

theorem convert_cons (s0 s1 s2 d0 d1 d2 d3 : ℕ) (srest drest : List ℕ) :
    convert (s0 :: s1 :: s2 :: srest) (d0 :: d1 :: d2 :: d3 :: drest) =
      s0 :: s1 :: s2 :: 255 :: convert srest drest := rfl

theorem convert_length (src dst : List ℕ) :
    (convert src dst).length = dst.length := by
  match src, dst with
  | s0 :: s1 :: s2 :: srest, d0 :: d1 :: d2 :: d3 :: drest =>
      rw [convert_cons]
      simp [convert_length srest drest]
  | [], d => rw [convert_nil_src]
  | [_], d => rw [convert_short_src _ d (by simp)]
  | [_, _], d => rw [convert_short_src _ d (by simp)]
  | _ :: _ :: _ :: _, [] => rfl
  | _ :: _ :: _ :: _, [_] => rfl
  | _ :: _ :: _ :: _, [_, _] => rfl
  | _ :: _ :: _ :: _, [_, _, _] => rfl

theorem convert_getD_pixel : ∀ (src dst : List ℕ) (i : ℕ),
    3 * i + 3 ≤ src.length → 4 * i + 4 ≤ dst.length →
    (convert src dst).getD (4*i) 0 = src.getD (3*i) 0 ∧
    (convert src dst).getD (4*i+1) 0 = src.getD (3*i+1) 0 ∧
    (convert src dst).getD (4*i+2) 0 = src.getD (3*i+2) 0 ∧
    (convert src dst).getD (4*i+3) 0 = 255
  | s0 :: s1 :: s2 :: sr, d0 :: d1 :: d2 :: d3 :: dr, 0, _, _ => by
      rw [convert_cons]
      exact ⟨rfl, rfl, rfl, rfl⟩
  | s0 :: s1 :: s2 :: sr, d0 :: d1 :: d2 :: d3 :: dr, i+1, hs, hd => by
      rw [convert_cons]
      have hs' : 3 * i + 3 ≤ sr.length := by
        simp only [List.length_cons] at hs; omega
      have hd' : 4 * i + 4 ≤ dr.length := by
        simp only [List.length_cons] at hd; omega
      exact convert_getD_pixel sr dr i hs' hd'
  | [], _, i, hs, _ => by simp only [List.length_nil] at hs; omega
  | [_], _, i, hs, _ => by simp only [List.length_cons, List.length_nil] at hs; omega
  | [_, _], _, i, hs, _ => by simp only [List.length_cons, List.length_nil] at hs; omega
  | _ :: _ :: _ :: _, [], i, _, hd => by simp only [List.length_nil] at hd; omega
  | _ :: _ :: _ :: _, [_], i, _, hd => by
      simp only [List.length_cons, List.length_nil] at hd; omega
  | _ :: _ :: _ :: _, [_, _], i, _, hd => by
      simp only [List.length_cons, List.length_nil] at hd; omega
  | _ :: _ :: _ :: _, [_, _, _], i, _, hd => by
      simp only [List.length_cons, List.length_nil] at hd; omega

theorem convert_getD_tail : ∀ (src dst : List ℕ) (j : ℕ),
    4 * min (src.length / 3) (dst.length / 4) ≤ j →
    (convert src dst).getD j 0 = dst.getD j 0
  | s0 :: s1 :: s2 :: sr, d0 :: d1 :: d2 :: d3 :: dr, j, hj => by
      rw [convert_cons]
      have hm : min ((s0 :: s1 :: s2 :: sr).length / 3)
          ((d0 :: d1 :: d2 :: d3 :: dr).length / 4)
          = min (sr.length / 3) (dr.length / 4) + 1 := by
        simp only [List.length_cons]; omega
      rw [hm] at hj
      obtain ⟨j', rfl⟩ : ∃ j', j = j' + 4 := ⟨j - 4, by omega⟩
      show (convert sr dr).getD j' 0 = dr.getD j' 0
      exact convert_getD_tail sr dr j' (by omega)
  | [], dst, j, _ => by rw [convert_nil_src]
  | [_], dst, j, _ => by rw [convert_short_src _ dst (by simp)]
  | [_, _], dst, j, _ => by rw [convert_short_src _ dst (by simp)]
  | _ :: _ :: _ :: _, [], j, _ => rfl
  | _ :: _ :: _ :: _, [_], j, _ => rfl
  | _ :: _ :: _ :: _, [_, _], j, _ => rfl
  | _ :: _ :: _ :: _, [_, _, _], j, _ => rfl

theorem convert_idem : ∀ (src dst : List ℕ),
    convert src (convert src dst) = convert src dst
  | s0 :: s1 :: s2 :: sr, d0 :: d1 :: d2 :: d3 :: dr => by
      rw [convert_cons, convert_cons, convert_idem sr dr]
  | [], dst => by rw [convert_nil_src, convert_nil_src]
  | [_], dst => by
      rw [convert_short_src _ dst (by simp), convert_short_src _ dst (by simp)]
  | [_, _], dst => by
      rw [convert_short_src _ dst (by simp), convert_short_src _ dst (by simp)]
  | _ :: _ :: _ :: _, [] => rfl
  | _ :: _ :: _ :: _, [_] => rfl
  | _ :: _ :: _ :: _, [_, _] => rfl
  | _ :: _ :: _ :: _, [_, _, _] => rfl

-- ### Claims about the conversion loop

/-- C1: for a source buffer of length `3n` and a destination buffer of
length `4n`, after one run of the conversion loop every pixel index
`i < n` satisfies `dst[4i] = src[3i]`, `dst[4i+1] = src[3i+1]`,
`dst[4i+2] = src[3i+2]` and `dst[4i+3] = 255`, whatever the destination
held before. -/
theorem conversion_writes_every_pixel (n : ℕ) (src dst : List ℕ)
    (hs : src.length = 3 * n) (hd : dst.length = 4 * n)
    (i : ℕ) (hi : i < n) :
    (convert src dst).getD (4*i) 0 = src.getD (3*i) 0 ∧
    (convert src dst).getD (4*i+1) 0 = src.getD (3*i+1) 0 ∧
    (convert src dst).getD (4*i+2) 0 = src.getD (3*i+2) 0 ∧
    (convert src dst).getD (4*i+3) 0 = 255 :=
  convert_getD_pixel src dst i (by omega) (by omega)

theorem conversion_writes_every_pixel_witness :
    ([10, 20, 30, 40, 50, 60] : List ℕ).length = 3 * 2 ∧
    ([0, 0, 0, 0, 0, 0, 0, 0] : List ℕ).length = 4 * 2 ∧
    (1 : ℕ) < 2 ∧
    ((convert [10, 20, 30, 40, 50, 60] [0, 0, 0, 0, 0, 0, 0, 0]).getD (4*1) 0 =
        ([10, 20, 30, 40, 50, 60] : List ℕ).getD (3*1) 0 ∧
     (convert [10, 20, 30, 40, 50, 60] [0, 0, 0, 0, 0, 0, 0, 0]).getD (4*1+1) 0 =
        ([10, 20, 30, 40, 50, 60] : List ℕ).getD (3*1+1) 0 ∧
     (convert [10, 20, 30, 40, 50, 60] [0, 0, 0, 0, 0, 0, 0, 0]).getD (4*1+2) 0 =
        ([10, 20, 30, 40, 50, 60] : List ℕ).getD (3*1+2) 0 ∧
     (convert [10, 20, 30, 40, 50, 60] [0, 0, 0, 0, 0, 0, 0, 0]).getD (4*1+3) 0 = 255) :=
  ⟨rfl, rfl, by omega,
   conversion_writes_every_pixel 2 [10, 20, 30, 40, 50, 60]
     [0, 0, 0, 0, 0, 0, 0, 0] rfl rfl 1 (by omega)⟩

/-- C6: the conversion loop is idempotent — running it twice with the same
source over the same destination leaves the destination exactly as after a
single run. -/
theorem conversion_idempotent (src dst : List ℕ) :
    convert src (convert src dst) = convert src dst :=
  convert_idem src dst

/-- C7: when the two buffers disagree on pixel count, the loop writes
exactly `min (src.length / 3) (dst.length / 4)` pixels in order, and every
destination byte at an index at or past `4 * min (src.length / 3)
(dst.length / 4)` keeps its prior value; the excess of the longer grouped
sequence is dropped without any write (and, the embedding being total,
without any panic). -/
theorem conversion_partial_frame (src dst : List ℕ)
    (_hmis : src.length ≠ 3 * (dst.length / 4)) :
    (∀ i, i < min (src.length / 3) (dst.length / 4) →
      (convert src dst).getD (4*i) 0 = src.getD (3*i) 0 ∧
      (convert src dst).getD (4*i+1) 0 = src.getD (3*i+1) 0 ∧
      (convert src dst).getD (4*i+2) 0 = src.getD (3*i+2) 0 ∧
      (convert src dst).getD (4*i+3) 0 = 255) ∧
    (∀ j, 4 * min (src.length / 3) (dst.length / 4) ≤ j →
      (convert src dst).getD j 0 = dst.getD j 0) ∧
    (convert src dst).length = dst.length :=
  ⟨fun i hi => convert_getD_pixel src dst i (by omega) (by omega),
   fun j hj => convert_getD_tail src dst j hj,
   convert_length src dst⟩

theorem conversion_partial_frame_witness :
    ([1, 2, 3, 4] : List ℕ).length ≠ 3 * (([9, 9, 9, 9, 9] : List ℕ).length / 4) ∧
    ((∀ i, i < min (([1, 2, 3, 4] : List ℕ).length / 3)
        (([9, 9, 9, 9, 9] : List ℕ).length / 4) →
      (convert [1, 2, 3, 4] [9, 9, 9, 9, 9]).getD (4*i) 0 =
        ([1, 2, 3, 4] : List ℕ).getD (3*i) 0 ∧
      (convert [1, 2, 3, 4] [9, 9, 9, 9, 9]).getD (4*i+1) 0 =
        ([1, 2, 3, 4] : List ℕ).getD (3*i+1) 0 ∧
      (convert [1, 2, 3, 4] [9, 9, 9, 9, 9]).getD (4*i+2) 0 =
        ([1, 2, 3, 4] : List ℕ).getD (3*i+2) 0 ∧
      (convert [1, 2, 3, 4] [9, 9, 9, 9, 9]).getD (4*i+3) 0 = 255) ∧
    (∀ j, 4 * min (([1, 2, 3, 4] : List ℕ).length / 3)
        (([9, 9, 9, 9, 9] : List ℕ).length / 4) ≤ j →
      (convert [1, 2, 3, 4] [9, 9, 9, 9, 9]).getD j 0 =
        ([9, 9, 9, 9, 9] : List ℕ).getD j 0) ∧
    (convert [1, 2, 3, 4] [9, 9, 9, 9, 9]).length =
      ([9, 9, 9, 9, 9] : List ℕ).length) :=
  ⟨by decide, conversion_partial_frame [1, 2, 3, 4] [9, 9, 9, 9, 9] (by decide)⟩

-- ### Round-half-to-even: basic bounds

theorem rhe_cases (m : ℚ) : rhe m = ⌊m⌋ ∨ rhe m = ⌊m⌋ + 1 := by
  unfold rhe
  split_ifs <;> simp

theorem floor_le_rhe (m : ℚ) : ⌊m⌋ ≤ rhe m := by
  rcases rhe_cases m with h | h <;> omega

theorem rhe_le_floor_add_one (m : ℚ) : rhe m ≤ ⌊m⌋ + 1 := by
  rcases rhe_cases m with h | h <;> omega

theorem le_rhe (m : ℚ) : m - 1/2 ≤ (rhe m : ℚ) := by
  have hfl := Int.sub_one_lt_floor m
  have hfr := Int.floor_le m
  unfold rhe
  split_ifs with h1 h2 <;> push_cast <;> linarith

theorem rhe_le (m : ℚ) : (rhe m : ℚ) ≤ m + 1/2 := by
  have hfr := Int.floor_le m
  unfold rhe
  split_ifs with h1 h2 h3
  · linarith
  · push_cast
    linarith
  · linarith
  · push_cast
    have h1' := not_lt.mp h1
    linarith

theorem rhe_intCast (z : ℤ) : rhe (z : ℚ) = z := by
  unfold rhe
  rw [Int.floor_intCast]
  simp

theorem rhe_nonneg (m : ℚ) (h : 0 ≤ m) : 0 ≤ rhe m := by
  have := floor_le_rhe m
  have := Int.floor_nonneg.mpr h
  omega

theorem rhe_mono {m₁ m₂ : ℚ} (h : m₁ ≤ m₂) : rhe m₁ ≤ rhe m₂ := by
  rcases lt_or_eq_of_le (Int.floor_le_floor h) with hf | hf
  · have h1 := rhe_le_floor_add_one m₁
    have h2 := floor_le_rhe m₂
    omega
  · unfold rhe
    rw [hf]
    split_ifs with a1 a2 a3 b1 b2 b3 <;> try omega
    all_goals exfalso
    all_goals try linarith

-- ### Rounding to binary32: exactness, monotonicity, error bound

theorem two_zpow_add (a b : ℤ) : (2:ℚ) ^ a * 2 ^ b = 2 ^ (a + b) :=
  (zpow_add₀ two_ne_zero a b).symm

theorem f32round_nonneg (q : ℚ) : 0 ≤ f32round q := by
  unfold f32round
  split_ifs with h
  · exact le_refl 0
  · push_neg at h
    have hm : 0 ≤ q * 2 ^ (23 - Int.log 2 q) := by positivity
    have hr := rhe_nonneg _ hm
    have : (0:ℚ) ≤ (rhe (q * 2 ^ (23 - Int.log 2 q)) : ℚ) := by exact_mod_cast hr
    positivity

theorem f32round_eq_self_of_int (q : ℚ) (hq : 0 < q) (z : ℤ)
    (hz : q * 2 ^ (23 - Int.log 2 q) = (z : ℚ)) : f32round q = q := by
  unfold f32round
  rw [if_neg (not_le.mpr hq), hz, rhe_intCast, ← hz, mul_assoc, two_zpow_add,
    show (23 - Int.log 2 q) + (Int.log 2 q - 23) = 0 from by ring, zpow_zero, mul_one]

theorem f32round_natCast {n : ℕ} (h : n ≤ 2 ^ 24) : f32round (n : ℚ) = n := by
  rcases Nat.eq_zero_or_pos n with rfl | hn
  · simp [f32round]
  · have hq : 0 < (n : ℚ) := by positivity
    rcases le_or_lt (Int.log 2 (n : ℚ)) 23 with hcase | hcase
    · apply f32round_eq_self_of_int _ hq ((n : ℤ) * 2 ^ (23 - Int.log 2 (n : ℚ)).toNat)
      push_cast
      rw [show (23 : ℤ) - Int.log 2 (n : ℚ) = ((23 - Int.log 2 (n : ℚ)).toNat : ℤ) from
        (Int.toNat_of_nonneg (by omega)).symm, zpow_natCast]
      simp
    · have h2e : (2:ℚ) ^ (Int.log 2 (n : ℚ)) ≤ n :=
        Int.zpow_log_le_self (by norm_num : (1:ℕ) < 2) hq
      have h24 : (2:ℚ) ^ (24 : ℤ) ≤ (2:ℚ) ^ (Int.log 2 (n : ℚ)) :=
        zpow_le_zpow_right₀ (by norm_num) (by omega)
      have hge : (2:ℚ) ^ (24 : ℤ) ≤ n := le_trans h24 h2e
      have hn24 : n = 2 ^ 24 := by
        have h1 : (2:ℚ) ^ (24 : ℤ) = ((2 ^ 24 : ℕ) : ℚ) := by norm_num
        rw [h1] at hge
        have := Nat.cast_le (α := ℚ) |>.mp hge
        omega
      subst hn24
      have hlog : Int.log 2 ((2 ^ 24 : ℕ) : ℚ) = 24 := by
        rw [Int.log_natCast, Nat.log_pow (by norm_num)]
        norm_num
      apply f32round_eq_self_of_int _ hq (2 ^ 23)
      rw [hlog]
      push_cast
      rw [zpow_neg, zpow_one]
      norm_num

theorem f32round_mono {q₁ q₂ : ℚ} (h : q₁ ≤ q₂) : f32round q₁ ≤ f32round q₂ := by
  rcases le_or_lt q₁ 0 with h1 | h1
  · rw [f32round, if_pos h1]
    exact f32round_nonneg q₂
  · have h2 : 0 < q₂ := lt_of_lt_of_le h1 h
    have he : Int.log 2 q₁ ≤ Int.log 2 q₂ := Int.log_mono_right h1 h
    unfold f32round
    rw [if_neg (not_le.mpr h1), if_neg (not_le.mpr h2)]
    rcases eq_or_lt_of_le he with heq | hlt
    · rw [← heq]
      have hm : q₁ * 2 ^ (23 - Int.log 2 q₁) ≤ q₂ * 2 ^ (23 - Int.log 2 q₁) :=
        mul_le_mul_of_nonneg_right h (by positivity)
      have hr := rhe_mono hm
      exact mul_le_mul_of_nonneg_right (by exact_mod_cast hr) (by positivity)
    · -- distinct exponents: the left value is at most 2^(e₁+1), the right at least 2^e₂
      have hub : (rhe (q₁ * 2 ^ (23 - Int.log 2 q₁)) : ℚ) * 2 ^ (Int.log 2 q₁ - 23) ≤
          2 ^ (Int.log 2 q₁ + 1) := by
        have hm1 : q₁ * 2 ^ (23 - Int.log 2 q₁) < 2 ^ (24 : ℤ) := by
          have := Int.lt_zpow_succ_log_self (by norm_num : (1:ℕ) < 2) q₁
          calc q₁ * 2 ^ (23 - Int.log 2 q₁)
              < 2 ^ (Int.log 2 q₁ + 1) * 2 ^ (23 - Int.log 2 q₁) :=
                mul_lt_mul_of_pos_right this (by positivity)
            _ = 2 ^ (24 : ℤ) := by
                rw [two_zpow_add, show Int.log 2 q₁ + 1 + (23 - Int.log 2 q₁) = 24 from by ring]
        have hfl : ⌊q₁ * 2 ^ (23 - Int.log 2 q₁)⌋ < 2 ^ 24 := by
          rw [Int.floor_lt]
          calc q₁ * 2 ^ (23 - Int.log 2 q₁) < 2 ^ (24 : ℤ) := hm1
            _ = ((2 ^ 24 : ℤ) : ℚ) := by norm_num
        have hr : rhe (q₁ * 2 ^ (23 - Int.log 2 q₁)) ≤ 2 ^ 24 := by
          have := rhe_le_floor_add_one (q₁ * 2 ^ (23 - Int.log 2 q₁))
          omega
        calc (rhe (q₁ * 2 ^ (23 - Int.log 2 q₁)) : ℚ) * 2 ^ (Int.log 2 q₁ - 23)
            ≤ ((2 ^ 24 : ℤ) : ℚ) * 2 ^ (Int.log 2 q₁ - 23) :=
              mul_le_mul_of_nonneg_right (by exact_mod_cast hr) (by positivity)
          _ = 2 ^ (24 : ℤ) * 2 ^ (Int.log 2 q₁ - 23) := by norm_num
          _ = 2 ^ (Int.log 2 q₁ + 1) := by
              rw [two_zpow_add, show (24 : ℤ) + (Int.log 2 q₁ - 23) = Int.log 2 q₁ + 1 from by ring]
      have hlb : (2:ℚ) ^ Int.log 2 q₂ ≤
          (rhe (q₂ * 2 ^ (23 - Int.log 2 q₂)) : ℚ) * 2 ^ (Int.log 2 q₂ - 23) := by
        have hm2 : (2:ℚ) ^ (23 : ℤ) ≤ q₂ * 2 ^ (23 - Int.log 2 q₂) := by
          have := Int.zpow_log_le_self (by norm_num : (1:ℕ) < 2) h2
          calc (2:ℚ) ^ (23 : ℤ) = 2 ^ Int.log 2 q₂ * 2 ^ (23 - Int.log 2 q₂) := by
                rw [two_zpow_add, show Int.log 2 q₂ + (23 - Int.log 2 q₂) = 23 from by ring]
            _ ≤ q₂ * 2 ^ (23 - Int.log 2 q₂) :=
              mul_le_mul_of_nonneg_right this (by positivity)
        have hfl : (2 ^ 23 : ℤ) ≤ ⌊q₂ * 2 ^ (23 - Int.log 2 q₂)⌋ := by
          rw [Int.le_floor]
          calc ((2 ^ 23 : ℤ) : ℚ) = 2 ^ (23 : ℤ) := by norm_num
            _ ≤ q₂ * 2 ^ (23 - Int.log 2 q₂) := hm2
        have hr : (2 ^ 23 : ℤ) ≤ rhe (q₂ * 2 ^ (23 - Int.log 2 q₂)) := by
          have := floor_le_rhe (q₂ * 2 ^ (23 - Int.log 2 q₂))
          omega
        calc (2:ℚ) ^ Int.log 2 q₂
            = ((2 ^ 23 : ℤ) : ℚ) * 2 ^ (Int.log 2 q₂ - 23) := by
              rw [show ((2 ^ 23 : ℤ) : ℚ) = (2:ℚ) ^ (23 : ℤ) from by norm_num,
                two_zpow_add, show (23 : ℤ) + (Int.log 2 q₂ - 23) = Int.log 2 q₂ from by ring]
          _ ≤ _ := mul_le_mul_of_nonneg_right (by exact_mod_cast hr) (by positivity)
      have hmid : (2:ℚ) ^ (Int.log 2 q₁ + 1) ≤ 2 ^ Int.log 2 q₂ :=
        zpow_le_zpow_right₀ (by norm_num) (by omega)
      linarith

theorem sub_ulp_le_f32round {q : ℚ} (hq : 0 < q) :
    q - 2 ^ (Int.log 2 q - 24) ≤ f32round q := by
  unfold f32round
  rw [if_neg (not_le.mpr hq)]
  have h1 := le_rhe (q * 2 ^ (23 - Int.log 2 q))
  have key : q - 2 ^ (Int.log 2 q - 24) =
      (q * 2 ^ (23 - Int.log 2 q) - 1/2) * 2 ^ (Int.log 2 q - 23) := by
    rw [sub_mul, mul_assoc, two_zpow_add,
      show (23 - Int.log 2 q) + (Int.log 2 q - 23) = 0 from by ring, zpow_zero, mul_one,
      show (1/2 : ℚ) = 2 ^ (-1 : ℤ) from by norm_num, two_zpow_add,
      show (-1 : ℤ) + (Int.log 2 q - 23) = Int.log 2 q - 24 from by ring]
  rw [key]
  exact mul_le_mul_of_nonneg_right h1 (by positivity)

theorem f32round_one : f32round 1 = 1 := by
  have h := @f32round_natCast 1 (by norm_num)
  simpa using h

theorem one_le_f32round {q : ℚ} (h : 1 ≤ q) : 1 ≤ f32round q := by
  have hm := f32round_mono h
  rwa [f32round_one] at hm

-- ### The ceiling computed in f32 equals the exact rational ceiling
-- whenever both operands are at most 2^24 (hence exactly representable).

theorem ceil_f32round_div {b n : ℕ} (hb : 0 < b) (hbn : b < n) (hn : n ≤ 2 ^ 24) :
    ⌈f32round ((n : ℚ) / b)⌉ = ⌈(n : ℚ) / b⌉ := by
  have hbq : (0:ℚ) < b := by exact_mod_cast hb
  have hr1 : 1 < (n : ℚ) / b := by
    rw [lt_div_iff₀ hbq]
    simpa using (by exact_mod_cast hbn : (b:ℚ) < (n:ℚ))
  have hr0 : 0 < (n : ℚ) / b := by linarith
  have hrn : (n : ℚ) / b ≤ (n : ℚ) := div_le_self (by positivity) (by exact_mod_cast hb)
  have hcle : ⌈(n : ℚ) / b⌉ ≤ (n : ℤ) := by
    calc ⌈(n : ℚ) / b⌉ ≤ ⌈(n : ℚ)⌉ := Int.ceil_le_ceil hrn
      _ = (n : ℤ) := Int.ceil_natCast n
  have hcpos : 0 < ⌈(n : ℚ) / b⌉ := by
    rw [Int.lt_ceil]
    push_cast
    linarith
  -- upper bound: rounding below the (exactly representable) ceiling
  have hexact : f32round ((⌈(n : ℚ) / b⌉ : ℚ)) = ((⌈(n : ℚ) / b⌉ : ℚ)) := by
    have heq := Int.toNat_of_nonneg (le_of_lt hcpos)
    rw [← heq]
    push_cast
    exact f32round_natCast (by omega)
  have hub : ⌈f32round ((n : ℚ) / b)⌉ ≤ ⌈(n : ℚ) / b⌉ := by
    have h1 : f32round ((n : ℚ) / b) ≤ ((⌈(n : ℚ) / b⌉ : ℚ)) := by
      have := f32round_mono (Int.le_ceil ((n : ℚ) / b))
      rwa [hexact] at this
    calc ⌈f32round ((n : ℚ) / b)⌉ ≤ ⌈((⌈(n : ℚ) / b⌉ : ℤ) : ℚ)⌉ := Int.ceil_le_ceil h1
      _ = ⌈(n : ℚ) / b⌉ := Int.ceil_intCast _
  by_cases hdvd : b ∣ n
  · -- exact quotient: the division result is an integer at most 2^24
    have hq : (n : ℚ) / b = ((n / b : ℕ) : ℚ) := (Nat.cast_div hdvd (by positivity)).symm
    rw [hq, f32round_natCast (le_trans (Nat.div_le_self n b) hn)]
  · -- inexact quotient: the rounding error is too small to cross the floor
    have hs0 : 0 < n % b := Nat.pos_of_ne_zero fun h0 => hdvd (Nat.dvd_of_mod_eq_zero h0)
    have hsb : n % b < b := Nat.mod_lt n hb
    have hrk : (n : ℚ) / b = (n / b : ℕ) + ((n % b : ℕ) : ℚ) / b := by
      have hnks : (n : ℚ) = (b : ℚ) * ((n / b : ℕ) : ℚ) + ((n % b : ℕ) : ℚ) := by
        exact_mod_cast congrArg (Nat.cast : ℕ → ℚ) (Nat.div_add_mod n b).symm
      rw [hnks]
      field_simp
      ring
    have hfrac0 : 0 < ((n % b : ℕ) : ℚ) / b := by positivity
    have hfrac1 : ((n % b : ℕ) : ℚ) / b < 1 := by
      rw [div_lt_one hbq]
      exact_mod_cast hsb
    have hceil : ⌈(n : ℚ) / b⌉ = ((n / b : ℕ) : ℤ) + 1 := by
      have hz : ((((n / b : ℕ) : ℤ) + 1 : ℤ) : ℚ) = ((n / b : ℕ) : ℚ) + 1 := by
        rw [Int.cast_add, Int.cast_one, Int.cast_natCast]
      rw [Int.ceil_eq_iff, hz, hrk]
      constructor
      · linarith
      · linarith
    have he0 : 0 ≤ Int.log 2 ((n : ℚ) / b) := by
      apply (Int.zpow_le_iff_le_log (by norm_num : (1:ℕ) < 2) hr0).mp
      rw [zpow_zero]
      linarith
    -- b * 2^e < (n % b) * 2^24 in natural numbers
    have hble : b * 2 ^ (Int.log 2 ((n : ℚ) / b)).toNat ≤ n := by
      have h2e := Int.zpow_log_le_self (by norm_num : (1:ℕ) < 2) hr0
      have hq : (2:ℚ) ^ Int.log 2 ((n : ℚ) / b) * b ≤ n := by
        calc (2:ℚ) ^ Int.log 2 ((n : ℚ) / b) * b ≤ ((n : ℚ) / b) * b :=
              mul_le_mul_of_nonneg_right h2e (le_of_lt hbq)
          _ = (n : ℚ) := div_mul_cancel₀ _ (ne_of_gt hbq)
      have hcast : (2:ℚ) ^ Int.log 2 ((n : ℚ) / b) =
          ((2 ^ (Int.log 2 ((n : ℚ) / b)).toNat : ℕ) : ℚ) := by
        push_cast
        rw [← zpow_natCast (2:ℚ), Int.toNat_of_nonneg he0]
      rw [hcast] at hq
      have hq2 : ((b * 2 ^ (Int.log 2 ((n : ℚ) / b)).toNat : ℕ) : ℚ) ≤ (n : ℚ) := by
        calc ((b * 2 ^ (Int.log 2 ((n : ℚ) / b)).toNat : ℕ) : ℚ)
            = ((2 ^ (Int.log 2 ((n : ℚ) / b)).toNat : ℕ) : ℚ) * b := by push_cast; ring
          _ ≤ (n : ℚ) := hq
      exact_mod_cast hq2
    have hblt : b * 2 ^ (Int.log 2 ((n : ℚ) / b)).toNat < (n % b) * 2 ^ 24 := by
      have h1 : b * 2 ^ (Int.log 2 ((n : ℚ) / b)).toNat ≠ n := fun h =>
        hdvd (h ▸ Dvd.intro _ rfl)
      have h2 : b * 2 ^ (Int.log 2 ((n : ℚ) / b)).toNat < n := lt_of_le_of_ne hble h1
      calc b * 2 ^ (Int.log 2 ((n : ℚ) / b)).toNat < n := h2
        _ ≤ 2 ^ 24 := hn
        _ = 1 * 2 ^ 24 := (one_mul _).symm
        _ ≤ (n % b) * 2 ^ 24 := Nat.mul_le_mul_right _ hs0
    -- hence the unit-in-the-last-place bound stays below the fractional part
    have hfrac : (2:ℚ) ^ (Int.log 2 ((n : ℚ) / b) - 24) < ((n % b : ℕ) : ℚ) / b := by
      rw [zpow_sub₀ two_ne_zero, div_lt_div_iff₀ (by positivity) hbq]
      have hcast : (2:ℚ) ^ Int.log 2 ((n : ℚ) / b) =
          ((2 ^ (Int.log 2 ((n : ℚ) / b)).toNat : ℕ) : ℚ) := by
        push_cast
        rw [← zpow_natCast (2:ℚ), Int.toNat_of_nonneg he0]
      rw [hcast, show ((2:ℚ) ^ (24:ℤ)) = ((2 ^ 24 : ℕ) : ℚ) from by norm_num]
      rw [mul_comm] at hblt
      exact_mod_cast hblt
    have hlow : (((n / b : ℕ) : ℤ) : ℚ) < f32round ((n : ℚ) / b) := by
      have h1 := sub_ulp_le_f32round hr0
      have h2 : (((n / b : ℕ) : ℤ) : ℚ) = (n : ℚ) / b - ((n % b : ℕ) : ℚ) / b := by
        rw [Int.cast_natCast, hrk]
        ring
      linarith
    have hlow2 : ((n / b : ℕ) : ℤ) < ⌈f32round ((n : ℚ) / b)⌉ := by
      rw [Int.lt_ceil]
      exact hlow
    omega

-- ### calc_scale: closed form and bounds on the exactly-representable range

theorem calc_scale_eq_ceil {b n : ℕ} (hb : 0 < b) (hbn : b < n) (hn : n ≤ 2 ^ 24) :
    calc_scale b n = (⌈(n : ℚ) / b⌉).toNat := by
  have hbq : (0:ℚ) < b := by exact_mod_cast hb
  have hfb : f32round (b : ℚ) = (b : ℚ) := f32round_natCast (by omega)
  have hfn : f32round (n : ℚ) = (n : ℚ) := f32round_natCast hn
  have hbne : ¬ ((b : ℚ) = 0) := ne_of_gt hbq
  have hceil := ceil_f32round_div hb hbn hn
  have hr1 : 1 < (n : ℚ) / b := by
    rw [lt_div_iff₀ hbq]
    simpa using (by exact_mod_cast hbn : (b:ℚ) < (n:ℚ))
  have hcpos : 0 < ⌈(n : ℚ) / b⌉ := by
    rw [Int.lt_ceil]
    push_cast
    linarith
  have hcle : ⌈(n : ℚ) / b⌉ ≤ (n : ℤ) := by
    calc ⌈(n : ℚ) / b⌉ ≤ ⌈(n : ℚ)⌉ :=
          Int.ceil_le_ceil (div_le_self (by positivity) (by exact_mod_cast hb))
      _ = (n : ℤ) := Int.ceil_natCast n
  unfold calc_scale F32.ofU32
  rw [if_neg (by omega : ¬ n ≤ b), hfb, hfn]
  simp only [F32.div, if_neg hbne, F32.fceil, hceil, F32.toU32]
  rw [if_neg (by exact_mod_cast not_le.mpr hcpos), Int.floor_intCast]
  have : ⌈(n : ℚ) / b⌉.toNat ≤ 2 ^ 32 - 1 := by omega
  omega

theorem calc_scale_minimal {b n : ℕ} (hb : 0 < b) (hbn : b < n) (hn : n ≤ 2 ^ 24) :
    n ≤ calc_scale b n * b ∧ (calc_scale b n - 1) * b < n := by
  have hbq : (0:ℚ) < b := by exact_mod_cast hb
  have heq := calc_scale_eq_ceil hb hbn hn
  have hr1 : 1 < (n : ℚ) / b := by
    rw [lt_div_iff₀ hbq]
    simpa using (by exact_mod_cast hbn : (b:ℚ) < (n:ℚ))
  have hc2 : 2 ≤ ⌈(n : ℚ) / b⌉ := by
    have h1 : (1:ℤ) < ⌈(n : ℚ) / b⌉ := by
      rw [Int.lt_ceil]
      push_cast
      linarith
    omega
  constructor
  · have hq : (n:ℚ) ≤ ((⌈(n : ℚ) / b⌉.toNat : ℕ) : ℚ) * b := by
      have hcast : ((⌈(n : ℚ) / b⌉.toNat : ℕ) : ℚ) = ((⌈(n : ℚ) / b⌉ : ℤ) : ℚ) := by
        exact_mod_cast Int.toNat_of_nonneg (by omega : (0:ℤ) ≤ ⌈(n : ℚ) / b⌉)
      rw [hcast]
      calc (n:ℚ) = (n:ℚ) / b * b := (div_mul_cancel₀ _ (ne_of_gt hbq)).symm
        _ ≤ ((⌈(n : ℚ) / b⌉ : ℤ) : ℚ) * b :=
          mul_le_mul_of_nonneg_right (Int.le_ceil _) (le_of_lt hbq)
    rw [heq]
    exact_mod_cast hq
  · have hq : ((⌈(n : ℚ) / b⌉.toNat - 1 : ℕ) : ℚ) * b < n := by
      have hcast : ((⌈(n : ℚ) / b⌉.toNat - 1 : ℕ) : ℚ) = ((⌈(n : ℚ) / b⌉ : ℤ) : ℚ) - 1 := by
        have h1 : (⌈(n : ℚ) / b⌉.toNat - 1 : ℕ) = (⌈(n:ℚ)/b⌉ - 1).toNat := by omega
        rw [h1]
        have h2 : ((( ⌈(n:ℚ)/b⌉ - 1).toNat : ℤ) : ℚ) = ((⌈(n : ℚ) / b⌉ : ℤ) : ℚ) - 1 := by
          rw [Int.toNat_of_nonneg (by omega : (0:ℤ) ≤ ⌈(n : ℚ) / b⌉ - 1)]
          push_cast
          ring
        exact_mod_cast h2
      rw [hcast]
      have h2 := Int.ceil_lt_add_one ((n : ℚ) / b)
      calc (((⌈(n : ℚ) / b⌉ : ℤ) : ℚ) - 1) * b < ((n:ℚ)/b) * b := by
            apply mul_lt_mul_of_pos_right _ hbq
            linarith
        _ = (n:ℚ) := div_mul_cancel₀ _ (ne_of_gt hbq)
    rw [heq]
    exact_mod_cast hq

-- ### calc_scale: positivity and monotonicity over the whole domain

theorem toU32_fceil_div_ge_one {x y : ℚ} (hy : 1 ≤ y) (hxy : y ≤ x) :
    1 ≤ ((F32.finite x).div (F32.finite y)).fceil.toU32 := by
  have hy0 : ¬ (y = 0) := by intro h; rw [h] at hy; linarith
  simp only [F32.div, if_neg hy0, F32.fceil, F32.toU32]
  have h1 : (1:ℚ) ≤ x / y := (one_le_div (by linarith)).mpr hxy
  have h2 : 1 ≤ f32round (x / y) := one_le_f32round h1
  have h3 : (1:ℤ) ≤ ⌈f32round (x / y)⌉ := by
    exact_mod_cast le_trans h2 (Int.le_ceil _)
  rw [if_neg (by exact_mod_cast not_le.mpr (by omega : (0:ℤ) < ⌈f32round (x / y)⌉)),
    Int.floor_intCast]
  omega

theorem toU32_fceil_div_mono {x₁ x₂ y : ℚ} (hy : 1 ≤ y) (hx : x₁ ≤ x₂) :
    ((F32.finite x₁).div (F32.finite y)).fceil.toU32 ≤
      ((F32.finite x₂).div (F32.finite y)).fceil.toU32 := by
  have hy0 : ¬ (y = 0) := by intro h; rw [h] at hy; linarith
  simp only [F32.div, if_neg hy0, F32.fceil, F32.toU32]
  have hq : f32round (x₁ / y) ≤ f32round (x₂ / y) := by
    apply f32round_mono
    rw [div_eq_mul_inv, div_eq_mul_inv]
    exact mul_le_mul_of_nonneg_right hx (inv_nonneg.mpr (by linarith))
  have hc : ⌈f32round (x₁ / y)⌉ ≤ ⌈f32round (x₂ / y)⌉ := Int.ceil_le_ceil hq
  split_ifs with ha hb hb
  · exact le_refl 0
  · exact Nat.zero_le _
  · exfalso
    have ha' : (0:ℤ) < ⌈f32round (x₁ / y)⌉ := by exact_mod_cast not_le.mp ha
    have hb' : (⌈f32round (x₂ / y)⌉ : ℤ) ≤ 0 := by exact_mod_cast hb
    omega
  · rw [Int.floor_intCast, Int.floor_intCast]
    omega

theorem one_le_calc_scale {b n : ℕ} (hb : 0 < b) : 1 ≤ calc_scale b n := by
  unfold calc_scale
  split_ifs with h
  · exact le_refl 1
  · push_neg at h
    unfold F32.ofU32
    apply toU32_fceil_div_ge_one
    · exact one_le_f32round (by exact_mod_cast hb)
    · exact f32round_mono (by exact_mod_cast le_of_lt h)

theorem calc_scale_mono {b : ℕ} (hb : 0 < b) {n₁ n₂ : ℕ} (h : n₁ ≤ n₂) :
    calc_scale b n₁ ≤ calc_scale b n₂ := by
  unfold calc_scale
  split_ifs with h1 h2 h2
  · exact le_refl 1
  · push_neg at h2
    unfold F32.ofU32
    apply toU32_fceil_div_ge_one
    · exact one_le_f32round (by exact_mod_cast hb)
    · exact f32round_mono (by exact_mod_cast le_of_lt h2)
  · omega
  · unfold F32.ofU32
    apply toU32_fceil_div_mono
    · exact one_le_f32round (by exact_mod_cast hb)
    · exact f32round_mono (by exact_mod_cast h)

-- ### Concrete evaluations

theorem f32round_zero : f32round 0 = 0 := by
  unfold f32round
  rw [if_pos (le_refl 0)]

theorem calc_scale_zero_bound {n : ℕ} (hn : 0 < n) : calc_scale 0 n = 2 ^ 32 - 1 := by
  have h1 : (1:ℚ) ≤ f32round n := one_le_f32round (by exact_mod_cast hn)
  unfold calc_scale F32.ofU32
  rw [if_neg (by omega : ¬ n ≤ 0), Nat.cast_zero, f32round_zero]
  simp only [F32.div, if_true]
  rw [if_neg (by intro h; rw [h] at h1; linarith : ¬ f32round (n:ℚ) = 0)]
  rfl

/-- The nearest `f32` to `2^24 + 1 = 16777217` is `2^24`: the tie between
the two neighbouring floats is broken toward the even significand. -/
theorem f32round_16777217 : f32round (16777217 : ℚ) = 16777216 := by
  have hlog : Int.log 2 (16777217 : ℚ) = 24 := by
    rw [show (16777217 : ℚ) = ((16777217 : ℕ) : ℚ) from by norm_num, Int.log_natCast,
      Nat.log_eq_of_pow_le_of_lt_pow (show 2 ^ 24 ≤ 16777217 by norm_num)
        (show 16777217 < 2 ^ (24 + 1) by norm_num)]
    norm_num
  unfold f32round
  rw [if_neg (by norm_num : ¬ (16777217 : ℚ) ≤ 0), hlog,
    show (23 - 24 : ℤ) = -1 from by norm_num, show (24 - 23 : ℤ) = 1 from by norm_num,
    zpow_neg, zpow_one]
  have hfl : ⌊(16777217 * (2:ℚ)⁻¹)⌋ = 8388608 := by
    rw [Int.floor_eq_iff]
    constructor <;> norm_num
  have hrhe : rhe (16777217 * (2:ℚ)⁻¹) = 8388608 := by
    unfold rhe
    rw [hfl, if_neg (by norm_num), if_neg (by norm_num), if_pos (by decide)]
  rw [hrhe]
  norm_num

theorem calc_scale_1_16777217 : calc_scale 1 16777217 = 16777216 := by
  unfold calc_scale F32.ofU32
  rw [if_neg (by norm_num : ¬ (16777217 ≤ 1))]
  rw [show ((16777217 : ℕ) : ℚ) = (16777217 : ℚ) from by norm_num, f32round_16777217,
    Nat.cast_one, f32round_one]
  simp only [F32.div]
  rw [if_neg (by norm_num : ¬ ((1:ℚ) = 0)),
    show (16777216 : ℚ) / 1 = ((16777216 : ℕ) : ℚ) from by norm_num,
    f32round_natCast (by norm_num : (16777216:ℕ) ≤ 2 ^ 24)]
  simp only [F32.fceil, F32.toU32]
  rw [show ((16777216 : ℕ) : ℚ) = ((16777216 : ℤ) : ℚ) from by norm_num, Int.ceil_intCast]
  rw [if_neg (by norm_num : ¬ (((16777216 : ℤ) : ℚ) ≤ 0)), Int.floor_intCast]
  norm_num
  decide

theorem calc_scale_1000_3000 : calc_scale 1000 3000 = 3 := by
  rw [calc_scale_eq_ceil (by norm_num) (by norm_num) (by norm_num),
    show ((3000:ℕ):ℚ) / ((1000:ℕ):ℚ) = ((3:ℤ):ℚ) from by norm_num, Int.ceil_intCast]
  rfl

theorem calc_scale_500_1001 : calc_scale 500 1001 = 3 := by
  rw [calc_scale_eq_ceil (by norm_num) (by norm_num) (by norm_num),
    show ⌈((1001:ℕ):ℚ) / ((500:ℕ):ℚ)⌉ = (3:ℤ) from by
      rw [Int.ceil_eq_iff]
      constructor <;> norm_num]
  rfl

theorem calc_scale_900_3000 : calc_scale 900 3000 = 4 := by
  rw [calc_scale_eq_ceil (by norm_num) (by norm_num) (by norm_num),
    show ⌈((3000:ℕ):ℚ) / ((900:ℕ):ℚ)⌉ = (4:ℤ) from by
      rw [Int.ceil_eq_iff]
      constructor <;> norm_num]
  rfl

theorem calc_scale_1000_1900 : calc_scale 1000 1900 = 2 := by
  rw [calc_scale_eq_ceil (by norm_num) (by norm_num) (by norm_num),
    show ⌈((1900:ℕ):ℚ) / ((1000:ℕ):ℚ)⌉ = (2:ℤ) from by
      rw [Int.ceil_eq_iff]
      constructor <;> norm_num]
  rfl

theorem calc_scale_1000_900 : calc_scale 1000 900 = 1 := by
  unfold calc_scale
  rw [if_pos (by norm_num)]

-- ### Claims about the scale selector

/-- C2 counterexample: at bound 1 and native 16777217 = 2^24 + 1 (both
valid `u32` values with the bound positive and below the native extent),
`calc_scale` returns 16777216, so the claimed lower bound
`select_scale(bound, native) * bound >= native` fails: converting
16777217 to `f32` already rounds it down to 16777216 (ties-to-even)
before the division happens. -/
theorem scale_exact_ceiling_counterexample :
    0 < (1:ℕ) ∧ 1 < (16777217:ℕ) ∧ calc_scale 1 16777217 = 16777216 ∧
    ¬ (16777217 ≤ calc_scale 1 16777217 * 1) := by
  refine ⟨by norm_num, by norm_num, calc_scale_1_16777217, ?_⟩
  rw [calc_scale_1_16777217]
  norm_num

/-- C2 (amended): for positive `bound < native` with `native ≤ 2^24` (the
range on which every intermediate `f32` value is exact enough),
`calc_scale bound native` is exactly `⌈native / bound⌉`, hence satisfies
`f * bound ≥ native` and `(f - 1) * bound < native`; in particular
`calc_scale 1000 3000 = 3` and `calc_scale 500 1001 = 3`. -/
theorem scale_exact_ceiling_amended :
    (∀ bound native : ℕ, 0 < bound → bound < native → native ≤ 2 ^ 24 →
      calc_scale bound native = ⌈(native : ℚ) / bound⌉.toNat ∧
      native ≤ calc_scale bound native * bound ∧
      (calc_scale bound native - 1) * bound < native) ∧
    calc_scale 1000 3000 = 3 ∧ calc_scale 500 1001 = 3 := by
  refine ⟨fun bound native hb hn h24 => ?_, calc_scale_1000_3000, calc_scale_500_1001⟩
  exact ⟨calc_scale_eq_ceil hb hn h24, (calc_scale_minimal hb hn h24).1,
    (calc_scale_minimal hb hn h24).2⟩

theorem scale_exact_ceiling_amended_witness :
    (0 < (1000:ℕ) ∧ (1000:ℕ) < 3000 ∧ (3000:ℕ) ≤ 2 ^ 24) ∧
    (calc_scale 1000 3000 = ⌈((3000:ℕ) : ℚ) / ((1000:ℕ) : ℚ)⌉.toNat ∧
     3000 ≤ calc_scale 1000 3000 * 1000 ∧
     (calc_scale 1000 3000 - 1) * 1000 < 3000) :=
  ⟨⟨by norm_num, by norm_num, by norm_num⟩,
   scale_exact_ceiling_amended.1 1000 3000 (by norm_num) (by norm_num) (by norm_num)⟩

/-- C3: whenever the native extent already fits the bound (and both are
positive), `calc_scale` returns exactly 1 — the first branch of the
source's `if max_size >= current_size`. -/
theorem scale_one_when_fits {bound native : ℕ} (_hb : 0 < bound) (_hn : 0 < native)
    (h : native ≤ bound) : calc_scale bound native = 1 := by
  unfold calc_scale
  rw [if_pos h]

theorem scale_one_when_fits_witness :
    0 < (1000:ℕ) ∧ 0 < (900:ℕ) ∧ (900:ℕ) ≤ 1000 ∧ calc_scale 1000 900 = 1 :=
  ⟨by norm_num, by norm_num, by norm_num,
   scale_one_when_fits (by norm_num) (by norm_num) (by norm_num)⟩

/-- C4: the effective uniform factor applied to both axes is the maximum
of the two independently computed per-axis factors; with width bound 900
and image width 3000 the width factor is 4, with height bound 1000 and
image height 1900 the height factor is 2, and the effective factor is
`max 4 2 = 4`. -/
theorem effective_scale_is_max :
    (∀ max_w max_h img_w img_h : ℕ,
      effective_scale max_w max_h img_w img_h =
        max (calc_scale max_w img_w) (calc_scale max_h img_h)) ∧
    calc_scale 900 3000 = 4 ∧ calc_scale 1000 1900 = 2 ∧
    effective_scale 900 1000 3000 1900 = 4 := by
  refine ⟨fun _ _ _ _ => rfl, calc_scale_900_3000, calc_scale_1000_1900, ?_⟩
  unfold effective_scale
  rw [calc_scale_900_3000, calc_scale_1000_1900]
  rfl

/-- C5: for a fixed positive bound, `calc_scale` is monotonically
non-decreasing in the native extent. -/
theorem scale_monotone_in_native {bound : ℕ} (hb : 0 < bound) {n₁ n₂ : ℕ}
    (_hn1 : 0 < n₁) (h : n₁ ≤ n₂) : calc_scale bound n₁ ≤ calc_scale bound n₂ :=
  calc_scale_mono hb h

theorem scale_monotone_in_native_witness :
    0 < (500:ℕ) ∧ 0 < (900:ℕ) ∧ (900:ℕ) ≤ 1001 ∧
    calc_scale 500 900 ≤ calc_scale 500 1001 :=
  ⟨by norm_num, by norm_num, by norm_num,
   scale_monotone_in_native (by norm_num) (by norm_num) (by norm_num)⟩

/-- C8: for positive bounds and extents the per-axis factors and the
combined factor are at least 1, so the derived window extent (the image
extent divided by the combined factor with integer division) never
exceeds the native extent on either axis: the image is never upscaled. -/
theorem scale_never_upscales {max_w max_h img_w img_h : ℕ}
    (hw : 0 < max_w) (hh : 0 < max_h) (_hiw : 0 < img_w) (_hih : 0 < img_h) :
    1 ≤ calc_scale max_w img_w ∧ 1 ≤ calc_scale max_h img_h ∧
    1 ≤ effective_scale max_w max_h img_w img_h ∧
    (window_inner_size max_w max_h img_w img_h).1 ≤ img_w ∧
    (window_inner_size max_w max_h img_w img_h).2 ≤ img_h := by
  refine ⟨one_le_calc_scale hw, one_le_calc_scale hh, ?_, ?_, ?_⟩
  · exact le_trans (one_le_calc_scale hw) (le_max_left _ _)
  · exact Nat.div_le_self _ _
  · exact Nat.div_le_self _ _

theorem scale_never_upscales_witness :
    0 < (900:ℕ) ∧ 0 < (1000:ℕ) ∧ 0 < (3000:ℕ) ∧ 0 < (1900:ℕ) ∧
    (1 ≤ calc_scale 900 3000 ∧ 1 ≤ calc_scale 1000 1900 ∧
     1 ≤ effective_scale 900 1000 3000 1900 ∧
     (window_inner_size 900 1000 3000 1900).1 ≤ 3000 ∧
     (window_inner_size 900 1000 3000 1900).2 ≤ 1900) :=
  ⟨by norm_num, by norm_num, by norm_num, by norm_num,
   scale_never_upscales (by norm_num) (by norm_num) (by norm_num) (by norm_num)⟩

/-- C9: the conversion prelude panics (modelled as `Except.error`) exactly
when the decoded image is not in 8-bit 3-channel RGB layout; when it is,
the unwrap succeeds and the conversion loop runs on the flat samples. -/
theorem unwrap_panic_iff_not_rgb8 (image : DynamicImage) (frame : List ℕ) :
    (∀ data, image = DynamicImage.rgb8 data →
      convert_frame image frame = Except.ok (convert data frame)) ∧
    (image = DynamicImage.otherLayout →
      convert_frame image frame = Except.error "called Option unwrap on a None value") := by
  constructor
  · rintro data rfl
    rfl
  · rintro rfl
    rfl

theorem unwrap_panic_iff_not_rgb8_witness :
    convert_frame (DynamicImage.rgb8 [1, 2, 3]) [0, 0, 0, 0] =
      Except.ok (convert [1, 2, 3] [0, 0, 0, 0]) ∧
    convert_frame DynamicImage.otherLayout [0, 0, 0, 0] =
      Except.error "called Option unwrap on a None value" :=
  ⟨(unwrap_panic_iff_not_rgb8 (DynamicImage.rgb8 [1, 2, 3]) [0, 0, 0, 0]).1 [1, 2, 3] rfl,
   (unwrap_panic_iff_not_rgb8 DynamicImage.otherLayout [0, 0, 0, 0]).2 rfl⟩

/-- C10: `calc_scale` is total (the embedding is a total function); it
returns 1 whenever the bound is at least the native extent, including both
inputs zero, and with a zero bound and a positive native extent the `f32`
division yields `+∞`, whose saturating cast gives `u32::MAX = 2^32 - 1`. -/
theorem calc_scale_total_on_zeros :
    (∀ max_size current_size : ℕ, current_size ≤ max_size →
      calc_scale max_size current_size = 1) ∧
    (∀ current_size : ℕ, 0 < current_size →
      calc_scale 0 current_size = 2 ^ 32 - 1) := by
  constructor
  · intro ms cs h
    unfold calc_scale
    rw [if_pos h]
  · intro cs h
    exact calc_scale_zero_bound h

theorem calc_scale_total_on_zeros_witness :
    ((0:ℕ) ≤ 0 ∧ calc_scale 0 0 = 1) ∧ (0 < (7:ℕ) ∧ calc_scale 0 7 = 2 ^ 32 - 1) :=
  ⟨⟨le_refl 0, calc_scale_total_on_zeros.1 0 0 (le_refl 0)⟩,
   ⟨by norm_num, calc_scale_total_on_zeros.2 7 (by norm_num)⟩⟩
